import Mathlib

/-!
Verification of the NDA Guardrail backend (src/backend/main.py) against its
specification. The pure text-chunking algorithm is embedded directly;
the request pipeline of the /analyze endpoint is embedded with its external
calls (vector-store RPC, generation API, JSON parsing of the generated text)
supplied as oracle parameters, and the downstream calls it performs recorded
in an explicit trace.
-/

set_option maxRecDepth 8000

namespace NDAGuardrail

/-- ASCII whitespace, as matched by the whitespace class of the Python regex
in chunk_text and by str.strip in the source. -/
def isSpace (c : Char) : Bool :=
  c = ' ' || c = '\t' || c = '\n' || c = '\r' || c = '\x0b' || c = '\x0c'

/-- Sentence-terminal punctuation of the lookbehind in the re.split call of
chunk_text (line 82 of main.py). -/
def isTerm (c : Char) : Bool :=
  c = '.' || c = '!' || c = '?'

/-- Python str.strip: remove whitespace from both ends of the string. -/
def stripWS (l : List Char) : List Char :=
  (l.dropWhile isSpace).rdropWhile isSpace

/-- The non-whitespace characters of a string, used to state coverage. -/
def nonWS (l : List Char) : List Char :=
  l.filter (fun c => !isSpace c)

/-- Line 79 of main.py, the re.sub step: every maximal run of whitespace
characters is replaced by a single space. -/
def squeeze : List Char → List Char
  | [] => []
  | [c] => [if isSpace c then ' ' else c]
  | a :: b :: rest =>
    if isSpace a && isSpace b then squeeze (b :: rest)
    else (if isSpace a then ' ' else a) :: squeeze (b :: rest)

/-- Line 79 of main.py: whitespace-run substitution followed by strip. -/
def normalize (l : List Char) : List Char :=
  stripWS (squeeze l)

/-- Line 82 of main.py, the re.split with a lookbehind: the text is split at a
whitespace character whose predecessor is sentence-terminal punctuation, the
whitespace being consumed. This scan is applied to the normalized text, in
which every whitespace run has length one, so consuming one character consumes
the whole run exactly as the regex does. The accumulator holds the current
sentence reversed. -/
def endsTerm (acc : List Char) : Bool :=
  match acc with
  | p :: _ => isTerm p
  | [] => false

/-- The character scan of the sentence split; endsTerm holds the lookbehind
test on the reversed current sentence. -/
def splitSentAux : List Char → List Char → List (List Char)
  | [], acc => [acc.reverse]
  | c :: rest, acc =>
    if isSpace c && endsTerm acc then
      acc.reverse :: splitSentAux rest []
    else
      splitSentAux rest (c :: acc)

/-- Line 82 of main.py: sentences = re.split(lookbehind-terminal whitespace, text). -/
def splitSentences (t : List Char) : List (List Char) :=
  splitSentAux t []

/-- Lines 84 to 96 of main.py: greedily pack sentences into chunks. current is
current_chunk; when the length check passes the sentence is joined to it with a
space (the join is taken when current is empty), otherwise a non-empty running
chunk is flushed stripped and the sentence starts the next chunk. At the end a
non-empty running chunk is flushed stripped. -/
def packSentences (chunk_size : Nat) : List (List Char) → List Char → List (List Char)
  | [], current => if current = [] then [] else [stripWS current]
  | s :: rest, current =>
    if current.length + s.length ≤ chunk_size then
      packSentences chunk_size rest (if current = [] then s else current ++ ' ' :: s)
    else
      (if current = [] then [] else [stripWS current]) ++ packSentences chunk_size rest s

/-- Lines 101 to 104 of main.py: the fixed-width fallback. Slice k is
text[k*step : k*step + chunk_size] with step = chunk_size - overlap; each slice
is stripped and kept when the stripped form is non-empty. For step > 0,
range(0, len t, step) has ceil(len t / step) elements. -/
def fallbackSlices (t : List Char) (chunk_size step : Nat) : List (List Char) :=
  ((List.range ((t.length + step - 1) / step)).map
      (fun k => stripWS ((t.drop (k * step)).take chunk_size))).filter
    (fun c => !c.isEmpty)

/-- Line 99 of main.py: the degenerate test on the sentence-packed chunks, true
for no chunks or for a single chunk longer than twice the chunk size. -/
def degenerate (chunks : List (List Char)) (chunk_size : Nat) : Bool :=
  match chunks with
  | [] => true
  | [c] => decide (chunk_size * 2 < c.length)
  | _ => false

/-- Lines 73 to 106 of main.py: chunk_text. Normalizes whitespace, splits into
sentences, greedily packs them; when the packed result is degenerate it falls
back to fixed-width slicing of the normalized text with step
chunk_size - overlap. The source calls it with the defaults 500 and 100; the
Python range underlying the fallback requires chunk_size > overlap. -/
def chunk_text (text : List Char) (chunk_size overlap : Nat) : List (List Char) :=
  if degenerate (packSentences chunk_size (splitSentences (normalize text)) []) chunk_size then
    fallbackSlices (normalize text) chunk_size (chunk_size - overlap)
  else
    packSentences chunk_size (splitSentences (normalize text)) []

/-- No two adjacent whitespace characters occur in the list. -/
def noTwo : List Char → Prop
  | a :: b :: rest => ¬(isSpace a = true ∧ isSpace b = true) ∧ noTwo (b :: rest)
  | _ => True

/-- Join a list of sentences with single spaces between them; on the normalized
text this inverts the sentence split. -/
def joinSp : List (List Char) → List Char
  | [] => []
  | [s] => s
  | s :: rest => s ++ ' ' :: joinSp rest

/-- The length of the longest element of a list of strings, zero when empty. -/
def maxLenList (ss : List (List Char)) : Nat :=
  (ss.map List.length).foldr max 0

/-- A Python value as it occurs in the id field of a retrieved rule record:
absent (rule.get of a missing key gives None), an integer, or a string. -/
inductive PyVal where
  | none : PyVal
  | int : Int → PyVal
  | str : List Char → PyVal
deriving DecidableEq, Repr

/-- Python truthiness on such a value: None, 0 and the empty string are falsy. -/
def truthy : PyVal → Bool
  | .none => false
  | .int n => n ≠ 0
  | .str s => !s.isEmpty

/-- A rule record returned by the match_legal_rules RPC, with the fields the
source reads: id (line 256) and the three prompt fields (lines 144 to 146). -/
structure Rule where
  id : PyVal
  rule_name : List Char
  standard_clause : List Char
  red_flags : List Char
deriving DecidableEq, Repr

/-- The outcome of one supabase.rpc('match_legal_rules', ...).execute() call:
an exception, or a response whose data field is None or a list of records. -/
def RpcOutcome : Type := Except (List Char) (Option (List Rule))

/-- Lines 115 to 134 of main.py: search_playbook_rules. On a successful call it
returns response.data if response.data else [] (line 131); any exception is
swallowed and an empty list returned (lines 132 to 134). -/
def search_playbook_rules : RpcOutcome → List Rule
  | .ok (some data) => if data.isEmpty then [] else data
  | .ok Option.none => []
  | .error _ => []

/-- Lines 255 to 259 of main.py, the inner aggregation loop over the rules
retrieved for one chunk: a rule is appended exactly when its id is truthy and
not yet in seen_rule_ids, in which case the id is added to seen. Returns the
appended rules together with the updated seen set (modelled as a list). -/
def collectChunk : List Rule → List PyVal → List Rule × List PyVal
  | [], seen => ([], seen)
  | r :: rest, seen =>
    if truthy r.id && !seen.contains r.id then
      (r :: (collectChunk rest (r.id :: seen)).1, (collectChunk rest (r.id :: seen)).2)
    else
      collectChunk rest seen

/-- Lines 247 to 259 of main.py, the outer aggregation loop over chunks:
threads seen_rule_ids through the per-chunk loops and concatenates the kept
rules in retrieval order. -/
def collectAll : List (List Rule) → List PyVal → List Rule
  | [], _ => []
  | rules :: rest, seen =>
    (collectChunk rules seen).1 ++ collectAll rest (collectChunk rules seen).2

/-- One risks entry of the JSON object parsed from the generated text, as
consumed by RiskItem(**risk) on line 268: the three required fields plus an
optional severity (pydantic substitutes the declared default when the key is
absent). -/
structure RiskDict where
  clause : List Char
  issue : List Char
  fix : List Char
  severity : Option (List Char)
deriving DecidableEq, Repr

/-- Lines 61 to 65 of main.py: the RiskItem pydantic model. severity is a plain
string field with default "medium"; no validation constrains its value. -/
structure RiskItem where
  clause : List Char
  issue : List Char
  fix : List Char
  severity : List Char
deriving DecidableEq, Repr

/-- Line 268 of main.py: RiskItem(**risk). The absent severity key falls back
to the declared default "medium"; a present value is taken as given. -/
def mkRiskItem (d : RiskDict) : RiskItem :=
  { clause := d.clause, issue := d.issue, fix := d.fix
    severity := d.severity.getD "medium".toList }

/-- Lines 68 to 70 of main.py: the RiskReport response model. -/
structure RiskReport where
  risks : List RiskItem
  summary : List Char
deriving DecidableEq, Repr

/-- The JSON object returned by json.loads on the generated text, with the two
keys the endpoint reads through .get on lines 268 and 269; either may be
absent. -/
structure ParsedReport where
  risks : Option (List RiskDict)
  summary : Option (List Char)
deriving DecidableEq, Repr

/-- Lines 188 to 217 of main.py: analyze_with_groq. The chunks and rules build
the prompt (lines 143 to 186); the generation call on that prompt and the JSON
parsing of its text are external, so the call outcome (transport failure or
returned text) and the parser are passed in, and the prompt text itself does
not influence the control flow. A transport failure raises HTTPException 500
(lines 215 to 217); text that fails to parse yields the degraded successful
report of lines 211 to 214; parsed text is returned. -/
def analyze_with_groq (nda_chunks : List (List Char)) (relevant_rules : List Rule)
    (call : Except (List Char) (List Char))
    (parse : List Char → Option ParsedReport) : Except Nat ParsedReport :=
  match call with
  | .error _ => .error 500
  | .ok text =>
    match parse text with
    | some report => .ok report
    | Option.none =>
      .ok { risks := some [], summary := some "Error parsing AI response. Please try again.".toList }

/-- The external behaviour an /analyze request runs against: the outcome of the
i-th similarity-search RPC, the outcome of the generation call, and the JSON
parser applied to the generated text. -/
structure Oracles where
  search : Nat → RpcOutcome
  groq : Except (List Char) (List Char)
  parse : List Char → Option ParsedReport

/-- A downstream call performed by the /analyze handler: embedding generation
for chunk i, similarity search for chunk i, or the generation call. -/
inductive CallEvent where
  | embed : Nat → CallEvent
  | search : Nat → CallEvent
  | generate : CallEvent
deriving DecidableEq, Repr

/-- The trace of the per-chunk loop of lines 251 to 259: for each chunk in
order, an embedding call then a search call. -/
def loopTrace (n : Nat) : List CallEvent :=
  ((List.range n).map (fun i => [CallEvent.embed i, CallEvent.search i])).flatten

/-- Lines 247 to 261 of main.py: the rules aggregated across chunks, feeding
the analyzer; chunk i uses the outcome of the i-th search call. -/
def aggregatedRules (nchunks : Nat) (o : Oracles) : List Rule :=
  collectAll ((List.range nchunks).map (fun i => search_playbook_rules (o.search i))) []

/-- Lines 226 to 270 of main.py: the /analyze handler. Returns the HTTP outcome
(an HTTPException status or a RiskReport) paired with the trace of downstream
calls. Validation (line 237) rejects empty or short-after-strip text with 400
before any downstream call; otherwise the text is chunked, each chunk embedded
and searched, the rules aggregated, the generation call made, and the parsed
report converted with the .get defaults of lines 268 and 269. -/
def analyze_nda (nda_text : List Char) (o : Oracles) : Except Nat RiskReport × List CallEvent :=
  if nda_text.isEmpty || (stripWS nda_text).length < 50 then
    (.error 400, [])
  else
    match analyze_with_groq (chunk_text nda_text 500 100)
        (aggregatedRules (chunk_text nda_text 500 100).length o) o.groq o.parse with
    | .error e =>
      (.error e, loopTrace (chunk_text nda_text 500 100).length ++ [CallEvent.generate])
    | .ok report =>
      (.ok { risks := (report.risks.getD []).map mkRiskItem,
             summary := report.summary.getD "Analysis complete.".toList },
       loopTrace (chunk_text nda_text 500 100).length ++ [CallEvent.generate])

/-! Concrete evaluations checking the embedding on small inputs. -/

example :
    chunk_text "Hi! How are you? I am fine.".toList 500 100 =
      ["Hi! How are you? I am fine.".toList] := by decide

example :
    chunk_text "Hi! How are you? I am fine.".toList 10 2 =
      ["Hi!".toList, "How are you?".toList, "I am fine.".toList] := by decide

example : chunk_text "   ".toList 500 100 = [] := by decide

example : chunk_text "ab".toList 1 0 = ["ab".toList] := by decide

/-! Basic facts about stripWS, nonWS and squeeze. -/

theorem nonWS_append (a b : List Char) : nonWS (a ++ b) = nonWS a ++ nonWS b := by
  simp [nonWS]

theorem nonWS_dropWhile (l : List Char) : nonWS (l.dropWhile isSpace) = nonWS l := by
  induction l with
  | nil => rfl
  | cons a t ih =>
    by_cases h : isSpace a <;> simp [List.dropWhile_cons, nonWS, List.filter_cons, h] at ih ⊢
    exact ih

theorem nonWS_reverse (l : List Char) : nonWS l.reverse = (nonWS l).reverse := by
  simp [nonWS]

theorem nonWS_rdropWhile (l : List Char) : nonWS (l.rdropWhile isSpace) = nonWS l := by
  rw [List.rdropWhile, nonWS_reverse, nonWS_dropWhile, nonWS_reverse, List.reverse_reverse]

theorem nonWS_stripWS (l : List Char) : nonWS (stripWS l) = nonWS l := by
  rw [stripWS, nonWS_rdropWhile, nonWS_dropWhile]

theorem nonWS_eq_nil_iff (l : List Char) : nonWS l = [] ↔ ∀ c ∈ l, isSpace c = true := by
  simp [nonWS, List.filter_eq_nil_iff]

theorem stripWS_ne_nil (l : List Char) (h : nonWS l ≠ []) : stripWS l ≠ [] := by
  intro hs
  apply h
  rw [← nonWS_stripWS, hs]
  rfl

theorem stripWS_sublist (l : List Char) : (stripWS l).Sublist l :=
  (( List.rdropWhile_prefix isSpace (l.dropWhile isSpace)).sublist).trans
    (l.dropWhile_sublist isSpace)

theorem stripWS_length_le (l : List Char) : (stripWS l).length ≤ l.length :=
  (stripWS_sublist l).length_le

theorem stripWS_head?_not (l : List Char) (c : Char)
    (h : (stripWS l).head? = some c) : isSpace c = false := by
  obtain ⟨t, ht⟩ := List.rdropWhile_prefix isSpace (l.dropWhile isSpace)
  cases hs : stripWS l with
  | nil => rw [hs] at h; exact Option.noConfusion h
  | cons x xs =>
    rw [hs] at h
    unfold stripWS at hs
    have hd : l.dropWhile isSpace = x :: (xs ++ t) := by
      rw [← ht, hs]; rfl
    have hdne : l.dropWhile isSpace ≠ [] := by
      rw [hd]; intro hx; exact List.noConfusion hx
    have hh := List.head_dropWhile_not isSpace l hdne
    have hx : (l.dropWhile isSpace).head hdne = x := by simp [hd]
    rw [hx] at hh
    have hcx : c = x := by
      rw [List.head?_cons, Option.some.injEq] at h; exact h.symm
    rw [hcx]
    simpa using hh

theorem stripWS_getLast?_not (l : List Char) (c : Char)
    (h : (stripWS l).getLast? = some c) : isSpace c = false := by
  have hne : stripWS l ≠ [] := by
    intro h0; rw [h0] at h; exact Option.noConfusion h
  have hh := List.rdropWhile_last_not isSpace (l.dropWhile isSpace) hne
  rw [List.getLast?_eq_getLast (stripWS l) hne, Option.some.injEq] at h
  rw [← h]
  simpa using hh

theorem stripWS_idem (l : List Char) : stripWS (stripWS l) = stripWS l := by
  have h1 : (stripWS l).dropWhile isSpace = stripWS l := by
    cases hs : stripWS l with
    | nil => rfl
    | cons x xs =>
      have hx : isSpace x = false := stripWS_head?_not l x (by rw [hs]; rfl)
      simp [List.dropWhile_cons, hx]
  calc stripWS (stripWS l)
      = List.rdropWhile isSpace ((stripWS l).dropWhile isSpace) := rfl
    _ = List.rdropWhile isSpace (stripWS l) := by rw [h1]
    _ = List.rdropWhile isSpace (List.rdropWhile isSpace (l.dropWhile isSpace)) := rfl
    _ = List.rdropWhile isSpace (l.dropWhile isSpace) :=
        List.rdropWhile_idempotent isSpace (l.dropWhile isSpace)
    _ = stripWS l := rfl

/-! Facts about squeeze: its head, that its whitespace is the single space
character, that it preserves the non-whitespace content, and that it never
leaves two adjacent whitespace characters. -/

theorem squeeze_head? : ∀ (b : Char) (r : List Char),
    (squeeze (b :: r)).head? = some (if isSpace b then ' ' else b)
  | b, [] => by simp [squeeze]
  | b, c :: rest => by
    by_cases hb : isSpace b
    · by_cases hc : isSpace c
      · have ih := squeeze_head? c rest
        simp only [squeeze, hb, hc, Bool.and_self, if_true, if_pos]
        rw [ih, if_pos hc]
      · simp [squeeze, hb, hc]
    · simp [squeeze, hb]

theorem isSpace_space : isSpace ' ' = true := by decide

theorem nonWS_cons_space (c : Char) (l : List Char) (h : isSpace c = true) :
    nonWS (c :: l) = nonWS l := by
  simp [nonWS, List.filter_cons, h]

theorem nonWS_cons_nonspace (c : Char) (l : List Char) (h : isSpace c = false) :
    nonWS (c :: l) = c :: nonWS l := by
  simp [nonWS, List.filter_cons, h]

theorem squeeze_ws_space : ∀ (l : List Char) (c : Char),
    c ∈ squeeze l → isSpace c = true → c = ' '
  | [], c, hc, _ => absurd hc (by simp [squeeze])
  | [a], c, hc, hs => by
    by_cases h : isSpace a = true
    · simpa [squeeze, h] using hc
    · simp [squeeze, h] at hc
      exact absurd (hc ▸ hs) h
  | a :: b :: rest, c, hc, hs => by
    by_cases hab : (isSpace a && isSpace b) = true
    · exact squeeze_ws_space (b :: rest) c (by simpa [squeeze, hab] using hc) hs
    · rw [squeeze, if_neg hab] at hc
      rcases List.mem_cons.mp hc with h1 | h1
      · by_cases ha : isSpace a = true
        · simpa [ha] using h1
        · rw [if_neg ha] at h1
          exact absurd (h1 ▸ hs) ha
      · exact squeeze_ws_space (b :: rest) c h1 hs

theorem nonWS_squeeze : ∀ l : List Char, nonWS (squeeze l) = nonWS l
  | [] => rfl
  | [a] => by
    by_cases h : isSpace a = true
    · rw [squeeze, if_pos h]
      rw [show ([a] : List Char) = a :: [] from rfl, nonWS_cons_space a [] h]
      decide
    · rw [squeeze, if_neg h]
  | a :: b :: rest => by
    have ih := nonWS_squeeze (b :: rest)
    by_cases hab : (isSpace a && isSpace b) = true
    · have ha : isSpace a = true := (by simpa using hab : _ ∧ _).1
      rw [squeeze, if_pos hab, ih, nonWS_cons_space a _ ha]
    · rw [squeeze, if_neg hab]
      by_cases ha : isSpace a = true
      · rw [if_pos ha, nonWS_cons_space ' ' _ isSpace_space, nonWS_cons_space a _ ha, ih]
      · have ha' : isSpace a = false := by
          cases hav : isSpace a
          · rfl
          · exact absurd hav ha
        rw [if_neg ha, nonWS_cons_nonspace a _ ha', nonWS_cons_nonspace a _ ha', ih]

theorem noTwo_tail : ∀ {a : Char} {l : List Char}, noTwo (a :: l) → noTwo l
  | _, [], _ => trivial
  | _, _ :: _, h => h.2

theorem noTwo_append_left : ∀ (l t : List Char), noTwo (l ++ t) → noTwo l
  | [], _, _ => trivial
  | [_], _, _ => trivial
  | a :: b :: rest, t, h => ⟨h.1, noTwo_append_left (b :: rest) t h.2⟩

theorem noTwo_append_right : ∀ (l t : List Char), noTwo (l ++ t) → noTwo t
  | [], _, h => h
  | _ :: rest, t, h => noTwo_append_right rest t (noTwo_tail h)

theorem noTwo_cons (c : Char) (l : List Char)
    (hhd : ∀ d, l.head? = some d → ¬(isSpace c = true ∧ isSpace d = true))
    (h : noTwo l) : noTwo (c :: l) := by
  cases l with
  | nil => trivial
  | cons d rest => exact ⟨hhd d rfl, h⟩

theorem noTwo_squeeze : ∀ l : List Char, noTwo (squeeze l)
  | [] => trivial
  | [_] => trivial
  | a :: b :: rest => by
    have ih := noTwo_squeeze (b :: rest)
    by_cases hab : (isSpace a && isSpace b) = true
    · rw [squeeze, if_pos hab]
      exact ih
    · rw [squeeze, if_neg hab]
      refine noTwo_cons _ _ ?_ ih
      intro d hd hcon
      rw [squeeze_head? b rest, Option.some.injEq] at hd
      by_cases ha : isSpace a = true
      · have hb : isSpace b = false := by
          cases hbv : isSpace b
          · rfl
          · exact absurd (by rw [ha, hbv]; rfl) hab
        rw [← hd, if_neg (show ¬isSpace b = true from by simp [hb])] at hcon
        exact absurd hcon.2 (by simp [hb])
      · rw [if_neg ha] at hcon
        exact ha hcon.1

/-! The properties of the normalized text that the sentence machinery uses. -/

theorem nonWS_normalize (l : List Char) : nonWS (normalize l) = nonWS l := by
  rw [normalize, nonWS_stripWS, nonWS_squeeze]

theorem normalize_ws_space (l : List Char) (c : Char) (hc : c ∈ normalize l)
    (hs : isSpace c = true) : c = ' ' :=
  squeeze_ws_space l c ((stripWS_sublist (squeeze l)).subset hc) hs

theorem noTwo_normalize (l : List Char) : noTwo (normalize l) := by
  have h0 : noTwo ((squeeze l).takeWhile isSpace ++ (squeeze l).dropWhile isSpace) := by
    rw [List.takeWhile_append_dropWhile]
    exact noTwo_squeeze l
  have h1 : noTwo ((squeeze l).dropWhile isSpace) := noTwo_append_right _ _ h0
  obtain ⟨t, ht⟩ := List.rdropWhile_prefix isSpace ((squeeze l).dropWhile isSpace)
  exact noTwo_append_left _ t (by
    show noTwo (List.rdropWhile isSpace ((squeeze l).dropWhile isSpace) ++ t)
    rw [ht]
    exact h1)

theorem normalize_head?_not (l : List Char) (c : Char)
    (h : (normalize l).head? = some c) : isSpace c = false :=
  stripWS_head?_not (squeeze l) c h

theorem normalize_getLast?_not (l : List Char) (c : Char)
    (h : (normalize l).getLast? = some c) : isSpace c = false :=
  stripWS_getLast?_not (squeeze l) c h

/-! The sentence split: it never returns an empty list, joining its output with
single spaces recovers the normalized text, and on normalized text every
sentence contains a non-whitespace character. -/

theorem and_left_of_band {a b : Bool} (h : (a && b) = true) : a = true := by
  cases a
  · simp at h
  · rfl

theorem and_right_of_band {a b : Bool} (h : (a && b) = true) : b = true := by
  cases b
  · simp at h
  · rfl

theorem isSpace_of_isTerm (p : Char) (h : isTerm p = true) : isSpace p = false := by
  have h2 : p = '.' ∨ p = '!' ∨ p = '?' := by
    simpa [isTerm, or_assoc] using h
  rcases h2 with h | h | h <;> rw [h] <;> decide

theorem splitSentAux_ne_nil : ∀ (l acc : List Char), splitSentAux l acc ≠ []
  | [], acc => by simp [splitSentAux]
  | c :: rest, acc => by
    rw [splitSentAux]
    split
    · exact List.cons_ne_nil _ _
    · exact splitSentAux_ne_nil rest (c :: acc)

theorem joinSp_cons (s : List Char) (ss : List (List Char)) (h : ss ≠ []) :
    joinSp (s :: ss) = s ++ ' ' :: joinSp ss := by
  cases ss with
  | nil => exact absurd rfl h
  | cons t ts => rfl

theorem joinSp_splitSentAux : ∀ (l acc : List Char),
    (∀ c ∈ l, isSpace c = true → c = ' ') →
    joinSp (splitSentAux l acc) = acc.reverse ++ l
  | [], acc, _ => by simp [splitSentAux, joinSp]
  | c :: rest, acc, h => by
    have hrest : ∀ d ∈ rest, isSpace d = true → d = ' ' :=
      fun d hd hs => h d (List.mem_cons_of_mem c hd) hs
    rw [splitSentAux]
    by_cases hc : (isSpace c && endsTerm acc) = true
    · rw [if_pos hc]
      rw [joinSp_cons _ _ (splitSentAux_ne_nil rest [])]
      rw [joinSp_splitSentAux rest [] hrest]
      have hcsp : c = ' ' := h c (List.mem_cons_self c rest) (and_left_of_band hc)
      simp [hcsp]
    · rw [if_neg hc]
      rw [joinSp_splitSentAux rest (c :: acc) hrest]
      simp

theorem joinSp_splitSentences (raw : List Char) :
    joinSp (splitSentences (normalize raw)) = normalize raw := by
  rw [splitSentences, joinSp_splitSentAux (normalize raw) [] (normalize_ws_space raw)]
  rfl

theorem splitSentAux_has_nonWS : ∀ (l acc : List Char),
    noTwo l →
    (∀ c, l.getLast? = some c → isSpace c = false) →
    (acc = [] → ∀ c, l.head? = some c → isSpace c = false) →
    (acc ≠ [] → ∃ c ∈ acc, isSpace c = false) →
    (acc = [] → l ≠ []) →
    ∀ s ∈ splitSentAux l acc, ∃ c ∈ s, isSpace c = false
  | [], acc, _, _, _, h4, h5 => by
    intro s hs
    have hacc : acc ≠ [] := by
      intro habs
      exact (h5 habs) rfl
    rw [splitSentAux] at hs
    rcases List.mem_singleton.mp hs with rfl
    obtain ⟨c, hc, hcs⟩ := h4 hacc
    exact ⟨c, List.mem_reverse.mpr hc, hcs⟩
  | c :: rest, acc, h1, h2, h3, h4, _ => by
    intro s hs
    have hlast : ∀ d, rest.getLast? = some d → isSpace d = false := by
      intro d hd
      apply h2
      cases rest with
      | nil => exact Option.noConfusion hd
      | cons x xs => rw [List.getLast?_cons_cons]; exact hd
    rw [splitSentAux] at hs
    by_cases hc : (isSpace c && endsTerm acc) = true
    · rw [if_pos hc] at hs
      have hcs : isSpace c = true := and_left_of_band hc
      cases hacc : acc with
      | nil =>
        rw [hacc] at hc
        exact absurd (and_right_of_band hc) (by decide)
      | cons p ps =>
        rw [hacc] at hs hc
        have hterm : isTerm p = true := and_right_of_band hc
        have hrestne : rest ≠ [] := by
          intro habs
          rw [habs] at h2
          have := h2 c rfl
          rw [this] at hcs
          exact Bool.noConfusion hcs
        rcases List.mem_cons.mp hs with rfl | hs2
        · exact ⟨p, List.mem_reverse.mpr (List.mem_cons_self p ps), isSpace_of_isTerm p hterm⟩
        · refine splitSentAux_has_nonWS rest [] (noTwo_tail h1) hlast ?_ ?_ ?_ s hs2
          · intro _ d hd
            cases rest with
            | nil => exact absurd rfl hrestne
            | cons x xs =>
              have hx : d = x := by
                rw [List.head?_cons, Option.some.injEq] at hd
                exact hd.symm
              rw [hx]
              cases hv : isSpace x
              · rfl
              · exact absurd ⟨hcs, hv⟩ h1.1
          · intro habs
            exact absurd rfl habs
          · intro _
            exact hrestne
    · rw [if_neg hc] at hs
      refine splitSentAux_has_nonWS rest (c :: acc) (noTwo_tail h1) hlast ?_ ?_ ?_ s hs
      · intro habs
        exact absurd habs (List.cons_ne_nil c acc)
      · intro _
        cases hacc : acc with
        | nil =>
          have hcns : isSpace c = false := h3 hacc c rfl
          exact ⟨c, List.mem_cons_self c [], hcns⟩
        | cons p ps =>
          obtain ⟨d, hd, hds⟩ := h4 (by rw [hacc]; exact List.cons_ne_nil p ps)
          exact ⟨d, List.mem_cons_of_mem c (hacc ▸ hd), hds⟩
      · intro habs
        exact absurd habs (List.cons_ne_nil c acc)

theorem sentences_have_nonWS (raw : List Char) (h : normalize raw ≠ []) :
    ∀ s ∈ splitSentences (normalize raw), ∃ c ∈ s, isSpace c = false := by
  refine splitSentAux_has_nonWS (normalize raw) [] (noTwo_normalize raw)
    (normalize_getLast?_not raw) ?_ ?_ ?_
  · intro _ c hc
    exact normalize_head?_not raw c hc
  · intro hne
    exact absurd rfl hne
  · intro _
    exact h

/-! Facts about the greedy sentence packing. -/

theorem nonWS_ne_nil_of_mem (l : List Char) (c : Char) (hc : c ∈ l)
    (hs : isSpace c = false) : nonWS l ≠ [] := by
  intro h
  have hm : c ∈ nonWS l := List.mem_filter.mpr ⟨hc, by simp [hs]⟩
  rw [h] at hm
  exact List.not_mem_nil c hm

theorem maxLenList_cons (s : List Char) (ss : List (List Char)) :
    maxLenList (s :: ss) = max s.length (maxLenList ss) := rfl

theorem nonWS_joinSp : ∀ ss : List (List Char), nonWS (joinSp ss) = (ss.map nonWS).flatten
  | [] => rfl
  | [s] => by simp [joinSp]
  | s :: t :: ts => by
    rw [joinSp_cons s (t :: ts) (List.cons_ne_nil t ts), nonWS_append,
      nonWS_cons_space ' ' _ isSpace_space, nonWS_joinSp (t :: ts)]
    simp

theorem packSentences_nonWS_flatten :
    ∀ (cs : Nat) (ss : List (List Char)) (cur : List Char),
    ((packSentences cs ss cur).map nonWS).flatten = nonWS cur ++ (ss.map nonWS).flatten
  | cs, [], cur => by
    by_cases h : cur = []
    · simp [packSentences, h, nonWS]
    · simp [packSentences, h, nonWS_stripWS]
  | cs, s :: rest, cur => by
    rw [packSentences]
    by_cases h : cur.length + s.length ≤ cs
    · rw [if_pos h, packSentences_nonWS_flatten cs rest _]
      by_cases hc : cur = []
      · simp [hc, nonWS]
      · rw [if_neg hc, nonWS_append, nonWS_cons_space ' ' _ isSpace_space]
        simp
    · rw [if_neg h]
      rw [List.map_append, List.flatten_append, packSentences_nonWS_flatten cs rest s]
      by_cases hc : cur = []
      · simp [hc, nonWS]
      · rw [if_neg hc]
        simp [nonWS_stripWS]

theorem packSentences_mem_ne_nil :
    ∀ (cs : Nat) (ss : List (List Char)) (cur : List Char),
    (∀ s ∈ ss, ∃ c ∈ s, isSpace c = false) →
    (cur ≠ [] → ∃ c ∈ cur, isSpace c = false) →
    ∀ ch ∈ packSentences cs ss cur, ch ≠ []
  | cs, [], cur => by
    intro _ hcur ch hch
    rw [packSentences] at hch
    by_cases h : cur = []
    · rw [if_pos h] at hch
      exact absurd hch (List.not_mem_nil ch)
    · rw [if_neg h] at hch
      rcases List.mem_singleton.mp hch with rfl
      obtain ⟨c, hc, hcs⟩ := hcur h
      exact stripWS_ne_nil cur (nonWS_ne_nil_of_mem cur c hc hcs)
  | cs, s :: rest, cur => by
    intro hss hcur ch hch
    have hrest : ∀ x ∈ rest, ∃ c ∈ x, isSpace c = false :=
      fun x hx => hss x (List.mem_cons_of_mem s hx)
    have hsel : ∃ c ∈ s, isSpace c = false := hss s (List.mem_cons_self s rest)
    rw [packSentences] at hch
    by_cases h : cur.length + s.length ≤ cs
    · rw [if_pos h] at hch
      refine packSentences_mem_ne_nil cs rest _ hrest ?_ ch hch
      intro _
      by_cases hc : cur = []
      · rw [if_pos hc]
        exact hsel
      · rw [if_neg hc]
        obtain ⟨c, hc2, hcs⟩ := hcur hc
        exact ⟨c, List.mem_append_left _ hc2, hcs⟩
    · rw [if_neg h] at hch
      rcases List.mem_append.mp hch with h1 | h1
      · by_cases hc : cur = []
        · rw [if_pos hc] at h1
          exact absurd h1 (List.not_mem_nil ch)
        · rw [if_neg hc] at h1
          rcases List.mem_singleton.mp h1 with rfl
          obtain ⟨c, hc2, hcs⟩ := hcur hc
          exact stripWS_ne_nil cur (nonWS_ne_nil_of_mem cur c hc2 hcs)
      · exact packSentences_mem_ne_nil cs rest s hrest (fun _ => hsel) ch h1

theorem packSentences_length_le :
    ∀ (cs : Nat) (ss : List (List Char)) (cur : List Char),
    ∀ ch ∈ packSentences cs ss cur,
    ch.length ≤ max (cs + 1) (max cur.length (maxLenList ss))
  | cs, [], cur => by
    intro ch hch
    rw [packSentences] at hch
    by_cases h : cur = []
    · rw [if_pos h] at hch
      exact absurd hch (List.not_mem_nil ch)
    · rw [if_neg h] at hch
      rcases List.mem_singleton.mp hch with rfl
      have h1 := stripWS_length_le cur
      have h2 : cur.length ≤ max cur.length (maxLenList []) := Nat.le_max_left _ _
      have h3 : max cur.length (maxLenList []) ≤ max (cs + 1) (max cur.length (maxLenList [])) :=
        Nat.le_max_right _ _
      omega
  | cs, s :: rest, cur => by
    intro ch hch
    rw [packSentences] at hch
    rw [maxLenList_cons]
    by_cases h : cur.length + s.length ≤ cs
    · rw [if_pos h] at hch
      have ih := packSentences_length_le cs rest
        (if cur = [] then s else cur ++ ' ' :: s) ch hch
      have hlen : (if cur = [] then s else cur ++ ' ' :: s).length ≤
          max (cs + 1) (max s.length (maxLenList rest)) := by
        by_cases hc : cur = []
        · rw [if_pos hc]
          have := Nat.le_max_left s.length (maxLenList rest)
          have := Nat.le_max_right (cs + 1) (max s.length (maxLenList rest))
          omega
        · rw [if_neg hc]
          have : (cur ++ ' ' :: s).length = cur.length + 1 + s.length := by
            simp [List.length_append]
            omega
          have h2 := Nat.le_max_left (cs + 1) (max s.length (maxLenList rest))
          omega
      revert ih hlen
      have e1 := Nat.le_max_left s.length (maxLenList rest)
      have e2 := Nat.le_max_right s.length (maxLenList rest)
      omega
    · rw [if_neg h] at hch
      rcases List.mem_append.mp hch with h1 | h1
      · by_cases hc : cur = []
        · rw [if_pos hc] at h1
          exact absurd h1 (List.not_mem_nil ch)
        · rw [if_neg hc] at h1
          rcases List.mem_singleton.mp h1 with rfl
          have h2 := stripWS_length_le cur
          omega
      · have ih := packSentences_length_le cs rest s ch h1
        have e1 := Nat.le_max_left s.length (maxLenList rest)
        have e2 := Nat.le_max_right s.length (maxLenList rest)
        omega

theorem packSentences_trimmed :
    ∀ (cs : Nat) (ss : List (List Char)) (cur : List Char),
    ∀ ch ∈ packSentences cs ss cur, stripWS ch = ch
  | cs, [], cur => by
    intro ch hch
    rw [packSentences] at hch
    by_cases h : cur = []
    · rw [if_pos h] at hch
      exact absurd hch (List.not_mem_nil ch)
    · rw [if_neg h] at hch
      rcases List.mem_singleton.mp hch with rfl
      exact stripWS_idem cur
  | cs, s :: rest, cur => by
    intro ch hch
    rw [packSentences] at hch
    by_cases h : cur.length + s.length ≤ cs
    · rw [if_pos h] at hch
      exact packSentences_trimmed cs rest _ ch hch
    · rw [if_neg h] at hch
      rcases List.mem_append.mp hch with h1 | h1
      · by_cases hc : cur = []
        · rw [if_pos hc] at h1
          exact absurd h1 (List.not_mem_nil ch)
        · rw [if_neg hc] at h1
          rcases List.mem_singleton.mp h1 with rfl
          exact stripWS_idem cur
      · exact packSentences_trimmed cs rest s ch h1

/-! Facts about the fixed-width fallback slicing. -/

theorem nonWS_flatten : ∀ xs : List (List Char), nonWS xs.flatten = (xs.map nonWS).flatten
  | [] => rfl
  | x :: t => by
    rw [List.flatten_cons, nonWS_append, nonWS_flatten t, List.map_cons, List.flatten_cons]

theorem flatten_filter_nonempty (xs : List (List Char)) :
    ((xs.filter (fun c => !c.isEmpty)).map nonWS).flatten = (xs.map nonWS).flatten := by
  induction xs with
  | nil => rfl
  | cons x t ih =>
    cases x with
    | nil => simpa [List.filter_cons, nonWS] using ih
    | cons a as => simp [List.filter_cons, ih]

theorem le_ceil_mul (L s : Nat) (hs : 1 ≤ s) : L ≤ ((L + s - 1) / s) * s := by
  rcases Nat.eq_zero_or_pos L with h | h
  · simp [h]
  · have hdm : (L + s - 1) / s * s + (L + s - 1) % s = L + s - 1 := Nat.div_add_mod' _ _
    have hmod : (L + s - 1) % s < s := Nat.mod_lt _ (by omega)
    generalize hr : (L + s - 1) % s = r at hdm hmod
    generalize hm : (L + s - 1) / s * s = m at hdm ⊢
    omega

theorem sublist_flatten_slices :
    ∀ (n : Nat) (t : List Char) (cs step : Nat),
    1 ≤ step → step ≤ cs → t.length ≤ n * step →
    t.Sublist (((List.range n).map (fun k => (t.drop (k * step)).take cs)).flatten)
  | 0, t, cs, step, _, _, h3 => by
    have ht : t = [] := List.length_eq_zero.mp (by simpa using h3)
    simp [ht]
  | n + 1, t, cs, step, h1, h2, h3 => by
    rw [List.range_succ_eq_map, List.map_cons, List.flatten_cons, List.map_map]
    have hmap : ((fun k => (t.drop (k * step)).take cs) ∘ Nat.succ) =
        (fun k => ((t.drop step).drop (k * step)).take cs) := by
      funext k
      simp only [Function.comp]
      rw [List.drop_drop, Nat.succ_mul, Nat.add_comm]
    rw [hmap]
    simp only [Nat.zero_mul, List.drop_zero]
    have hA : (t.take step).Sublist (t.take cs) := by
      have he : t.take step = (t.take cs).take step := by
        rw [List.take_take, Nat.min_eq_left h2]
      rw [he]
      exact List.take_sublist step (t.take cs)
    have hB : (t.drop step).Sublist
        (((List.range n).map fun k => ((t.drop step).drop (k * step)).take cs).flatten) := by
      refine sublist_flatten_slices n (t.drop step) cs step h1 h2 ?_
      have hsm : (n + 1) * step = n * step + step := Nat.succ_mul n step
      rw [List.length_drop]
      generalize hAx : (n + 1) * step = A at h3 hsm
      generalize hBx : n * step = B at hsm ⊢
      omega
    have hall := List.Sublist.append hA hB
    have hsplit : t = t.take step ++ t.drop step := (List.take_append_drop step t).symm
    rw [← hsplit] at hall
    exact hall

theorem fallbackSlices_covers (t : List Char) (cs step : Nat)
    (h1 : 1 ≤ step) (h2 : step ≤ cs) :
    (nonWS t).Sublist (((fallbackSlices t cs step).map nonWS).flatten) := by
  rw [fallbackSlices, flatten_filter_nonempty, List.map_map]
  have hcomp : (nonWS ∘ fun k => stripWS ((t.drop (k * step)).take cs)) =
      (fun k => nonWS ((t.drop (k * step)).take cs)) := by
    funext k
    simp only [Function.comp]
    exact nonWS_stripWS _
  rw [hcomp]
  have hsub := sublist_flatten_slices ((t.length + step - 1) / step) t cs step h1 h2
    (le_ceil_mul t.length step h1)
  have hfil := hsub.filter (fun c => !isSpace c)
  have h4 : nonWS ((((List.range ((t.length + step - 1) / step))).map
        (fun k => (t.drop (k * step)).take cs)).flatten)
      = ((List.range ((t.length + step - 1) / step)).map
        (fun k => nonWS ((t.drop (k * step)).take cs))).flatten := by
    rw [nonWS_flatten, List.map_map]
    rfl
  rw [← h4]
  exact hfil

/-! The chunk-level consequences. -/

theorem normalize_ne_nil (text : List Char) (h : nonWS text ≠ []) : normalize text ≠ [] := by
  intro habs
  apply h
  rw [← nonWS_normalize, habs]
  rfl

theorem fallbackSlices_ne_nil (t : List Char) (cs step : Nat)
    (hstep : 1 ≤ step) (hcs : 1 ≤ cs) (hne : t ≠ [])
    (hhead : ∀ c, t.head? = some c → isSpace c = false) :
    fallbackSlices t cs step ≠ [] := by
  cases t with
  | nil => exact absurd rfl hne
  | cons c rest =>
    have hc : isSpace c = false := hhead c rfl
    have htake : c ∈ (c :: rest).take cs := by
      cases cs with
      | zero => omega
      | succ m => rw [List.take_succ_cons]; exact List.mem_cons_self c _
    have hstrip : stripWS (((c :: rest).drop (0 * step)).take cs) ≠ [] := by
      simp only [Nat.zero_mul, List.drop_zero]
      exact stripWS_ne_nil _ (nonWS_ne_nil_of_mem _ c htake hc)
    have hmem : stripWS (((c :: rest).drop (0 * step)).take cs) ∈
        fallbackSlices (c :: rest) cs step := by
      rw [fallbackSlices]
      refine List.mem_filter.mpr ⟨List.mem_map.mpr ⟨0, ?_, rfl⟩, ?_⟩
      · refine List.mem_range.mpr ?_
        have hlen : 1 ≤ (c :: rest).length := by simp
        have h1d : 1 ≤ ((c :: rest).length + step - 1) / step := by
          rw [Nat.le_div_iff_mul_le (by omega : 0 < step)]
          omega
        omega
      · cases hx : stripWS (((c :: rest).drop (0 * step)).take cs) with
        | nil => exact absurd hx hstrip
        | cons y ys => rfl
    intro habs
    rw [habs] at hmem
    exact List.not_mem_nil _ hmem

theorem degenerate_false_ne_nil (chunks : List (List Char)) (cs : Nat)
    (h : degenerate chunks cs = false) : chunks ≠ [] := by
  intro habs
  rw [habs] at h
  exact Bool.noConfusion h

theorem chunk_text_nonWS_covers (text : List Char) (cs ov : Nat) (h : ov < cs) :
    (nonWS text).Sublist (((chunk_text text cs ov).map nonWS).flatten) := by
  rw [chunk_text]
  by_cases hdeg : degenerate (packSentences cs (splitSentences (normalize text)) []) cs = true
  · rw [if_pos hdeg]
    have h1 : 1 ≤ cs - ov := by omega
    have h2 : cs - ov ≤ cs := Nat.sub_le cs ov
    have hc := fallbackSlices_covers (normalize text) cs (cs - ov) h1 h2
    rwa [nonWS_normalize] at hc
  · rw [if_neg hdeg]
    rw [packSentences_nonWS_flatten cs (splitSentences (normalize text)) []]
    rw [show nonWS [] = [] from rfl, List.nil_append]
    rw [← nonWS_joinSp, joinSp_splitSentences, nonWS_normalize]

theorem chunk_text_chunks (text : List Char) (cs ov : Nat) (hov : ov < cs)
    (h : nonWS text ≠ []) :
    chunk_text text cs ov ≠ [] ∧
      ∀ ch ∈ chunk_text text cs ov, ch ≠ [] ∧ stripWS ch = ch := by
  have hnz : normalize text ≠ [] := normalize_ne_nil text h
  rw [chunk_text]
  by_cases hdeg : degenerate (packSentences cs (splitSentences (normalize text)) []) cs = true
  · rw [if_pos hdeg]
    constructor
    · exact fallbackSlices_ne_nil (normalize text) cs (cs - ov) (by omega) (by omega) hnz
        (normalize_head?_not text)
    · intro ch hch
      rw [fallbackSlices] at hch
      obtain ⟨hmem, hp⟩ := List.mem_filter.mp hch
      obtain ⟨k, _, hk⟩ := List.mem_map.mp hmem
      constructor
      · intro habs
        rw [habs] at hp
        exact Bool.noConfusion hp
      · rw [← hk]
        exact stripWS_idem _
  · rw [if_neg hdeg]
    refine ⟨degenerate_false_ne_nil _ cs (by simpa using hdeg), ?_⟩
    intro ch hch
    refine ⟨?_, packSentences_trimmed cs _ [] ch hch⟩
    refine packSentences_mem_ne_nil cs (splitSentences (normalize text)) []
      (sentences_have_nonWS text hnz) ?_ ch hch
    intro habs
    exact absurd rfl habs

/-! Facts about the rule aggregation loop. -/

theorem collectChunk_fst_sublist : ∀ (l : List Rule) (seen : List PyVal),
    ((collectChunk l seen).1).Sublist l
  | [], _ => List.nil_sublist []
  | r :: rest, seen => by
    rw [collectChunk]
    by_cases h : (truthy r.id && !seen.contains r.id) = true
    · rw [if_pos h]
      exact (collectChunk_fst_sublist rest (r.id :: seen)).cons₂ r
    · rw [if_neg h]
      exact (collectChunk_fst_sublist rest seen).cons r

theorem collectChunk_snd : ∀ (l : List Rule) (seen : List PyVal),
    (collectChunk l seen).2 = ((collectChunk l seen).1.map Rule.id).reverse ++ seen
  | [], seen => rfl
  | r :: rest, seen => by
    rw [collectChunk]
    by_cases h : (truthy r.id && !seen.contains r.id) = true
    · rw [if_pos h]
      rw [show ((r :: (collectChunk rest (r.id :: seen)).1,
          (collectChunk rest (r.id :: seen)).2) : List Rule × List PyVal).2 =
          (collectChunk rest (r.id :: seen)).2 from rfl]
      rw [collectChunk_snd rest (r.id :: seen)]
      simp [List.append_assoc]
    · rw [if_neg h]
      exact collectChunk_snd rest seen

theorem contains_cons_eq (a x : PyVal) (l : List PyVal) :
    (a :: l).contains x = (x == a || l.contains x) := rfl

theorem collectChunk_filter_of_seen : ∀ (l : List Rule) (seen : List PyVal) (v : PyVal),
    seen.contains v = true →
    (collectChunk l seen).1.filter (fun r => r.id == v) = []
  | [], _, _, _ => rfl
  | r :: rest, seen, v, hv => by
    rw [collectChunk]
    by_cases h : (truthy r.id && !seen.contains r.id) = true
    · rw [if_pos h]
      have hns : seen.contains r.id = false := by
        have h2 := and_right_of_band h
        cases hx : seen.contains r.id
        · rfl
        · rw [hx] at h2
          exact Bool.noConfusion h2
      have hrv : (r.id == v) = false := by
        cases hb : r.id == v
        · rfl
        · have : r.id = v := eq_of_beq hb
          rw [this] at hns
          rw [hv] at hns
          exact Bool.noConfusion hns
      rw [List.filter_cons]
      simp only [hrv, if_neg (by simp : ¬(false = true))]
      refine collectChunk_filter_of_seen rest (r.id :: seen) v ?_
      rw [contains_cons_eq, hv]
      simp
    · rw [if_neg h]
      exact collectChunk_filter_of_seen rest seen v hv

theorem collectChunk_filter_first : ∀ (l : List Rule) (seen : List PyVal) (v : PyVal),
    truthy v = true → seen.contains v = false →
    (collectChunk l seen).1.filter (fun r => r.id == v) =
      (match l.filter (fun r => r.id == v) with
       | [] => ([] : List Rule)
       | r :: _ => [r])
  | [], _, _, _, _ => rfl
  | r :: rest, seen, v, hv, hs => by
    rw [collectChunk]
    by_cases hb : (r.id == v) = true
    · have hev : r.id = v := eq_of_beq hb
      have hcond : (truthy r.id && !seen.contains r.id) = true := by
        rw [hev, hv, hs]
        rfl
      rw [if_pos hcond]
      rw [List.filter_cons, List.filter_cons]
      simp only [hb, if_pos rfl]
      have hseen : (r.id :: seen).contains v = true := by
        rw [contains_cons_eq, hev]
        simp
      rw [collectChunk_filter_of_seen rest (r.id :: seen) v hseen]
      simp
    · have hbf : (r.id == v) = false := by
        cases hx : r.id == v
        · rfl
        · exact absurd hx hb
      by_cases h : (truthy r.id && !seen.contains r.id) = true
      · rw [if_pos h]
        rw [List.filter_cons, List.filter_cons]
        simp only [hbf, if_neg (by simp : ¬(false = true))]
        refine collectChunk_filter_first rest (r.id :: seen) v hv ?_
        have hvr : (v == r.id) = false :=
          beq_eq_false_iff_ne.mpr (Ne.symm (beq_eq_false_iff_ne.mp hbf))
        rw [contains_cons_eq, hvr, hs]
        rfl
      · rw [if_neg h]
        rw [List.filter_cons]
        simp only [hbf, if_neg (by simp : ¬(false = true))]
        exact collectChunk_filter_first rest seen v hv hs

theorem collectChunk_mem_truthy : ∀ (l : List Rule) (seen : List PyVal) (r : Rule),
    r ∈ (collectChunk l seen).1 → truthy r.id = true
  | [], _, r, hr => absurd hr (List.not_mem_nil r)
  | x :: rest, seen, r, hr => by
    rw [collectChunk] at hr
    by_cases h : (truthy x.id && !seen.contains x.id) = true
    · rw [if_pos h] at hr
      rcases List.mem_cons.mp hr with rfl | hr2
      · exact and_left_of_band h
      · exact collectChunk_mem_truthy rest (x.id :: seen) r hr2
    · rw [if_neg h] at hr
      exact collectChunk_mem_truthy rest seen r hr

theorem collectChunk_append : ∀ (a b : List Rule) (seen : List PyVal),
    collectChunk (a ++ b) seen =
      ((collectChunk a seen).1 ++ (collectChunk b (collectChunk a seen).2).1,
       (collectChunk b (collectChunk a seen).2).2)
  | [], b, seen => by simp [collectChunk]
  | r :: rest, b, seen => by
    rw [List.cons_append]
    by_cases h : (truthy r.id && !seen.contains r.id) = true
    · rw [collectChunk, if_pos h, collectChunk_append rest b (r.id :: seen)]
      rw [show collectChunk (r :: rest) seen =
          (r :: (collectChunk rest (r.id :: seen)).1,
           (collectChunk rest (r.id :: seen)).2) from by rw [collectChunk, if_pos h]]
      simp
    · rw [collectChunk, if_neg h, collectChunk_append rest b seen]
      rw [show collectChunk (r :: rest) seen = collectChunk rest seen from by
        rw [collectChunk, if_neg h]]

theorem collectAll_eq_flatten : ∀ (lists : List (List Rule)) (seen : List PyVal),
    collectAll lists seen = (collectChunk lists.flatten seen).1
  | [], _ => rfl
  | rules :: rest, seen => by
    rw [collectAll, List.flatten_cons, collectChunk_append,
      collectAll_eq_flatten rest (collectChunk rules seen).2]

/-! The shape of an /analyze run that passes validation. -/

theorem analyze_with_groq_rules_irrel (c1 c2 : List (List Char)) (r1 r2 : List Rule)
    (call : Except (List Char) (List Char)) (parse : List Char → Option ParsedReport) :
    analyze_with_groq c1 r1 call parse = analyze_with_groq c2 r2 call parse := rfl

theorem analyze_nda_fst_depends (text : List Char) (o oo : Oracles)
    (hg : o.groq = oo.groq) (hp : o.parse = oo.parse) :
    (analyze_nda text o).1 = (analyze_nda text oo).1 := by
  unfold analyze_nda
  by_cases hv : (text.isEmpty || decide ((stripWS text).length < 50)) = true
  · rw [if_pos hv, if_pos hv]
  · rw [if_neg hv, if_neg hv, hg, hp,
      analyze_with_groq_rules_irrel (chunk_text text 500 100) (chunk_text text 500 100)
        (aggregatedRules (chunk_text text 500 100).length o)
        (aggregatedRules (chunk_text text 500 100).length oo) oo.groq oo.parse]

theorem analyze_nda_valid_shape (text : List Char) (o : Oracles)
    (h50 : 50 ≤ (stripWS text).length) :
    analyze_nda text o =
      (match analyze_with_groq (chunk_text text 500 100)
          (aggregatedRules (chunk_text text 500 100).length o) o.groq o.parse with
       | .error e =>
         (Except.error e,
          loopTrace (chunk_text text 500 100).length ++ [CallEvent.generate])
       | .ok report =>
         (Except.ok { risks := (report.risks.getD []).map mkRiskItem,
                      summary := report.summary.getD "Analysis complete.".toList },
          loopTrace (chunk_text text 500 100).length ++ [CallEvent.generate])) := by
  have h1 : text.isEmpty = false := by
    cases text with
    | nil => exact absurd h50 (by decide)
    | cons a t => rfl
  have h2 : decide ((stripWS text).length < 50) = false := by
    simp
    omega
  unfold analyze_nda
  rw [if_neg (by rw [h1, h2]; simp)]

theorem analyze_with_groq_cases (c : List (List Char)) (r : List Rule)
    (call : Except (List Char) (List Char)) (parse : List Char → Option ParsedReport) :
    analyze_with_groq c r call parse = Except.error 500 ∨
      ∃ rep, analyze_with_groq c r call parse = Except.ok rep := by
  cases call with
  | error e => exact Or.inl rfl
  | ok resp =>
    cases hp : parse resp with
    | none =>
      refine Or.inr ⟨⟨some [], some "Error parsing AI response. Please try again.".toList⟩, ?_⟩
      rw [analyze_with_groq, hp]
    | some rep =>
      refine Or.inr ⟨rep, ?_⟩
      rw [analyze_with_groq, hp]

/-! Claim-level theorems. -/

/-- C4: a request whose nda_text is empty or, after stripping, shorter than 50
characters is rejected with status 400 before any downstream call (the call
trace is empty); a request whose stripped text has at least 50 characters
passes validation, the pipeline runs including the generation call, and the
outcome is never the 400 validation error. -/
theorem analyze_nda_validation (text : List Char) (o : Oracles) :
    ((stripWS text).length < 50 → analyze_nda text o = (Except.error 400, [])) ∧
    (50 ≤ (stripWS text).length →
      (analyze_nda text o).1 ≠ Except.error 400 ∧
      CallEvent.generate ∈ (analyze_nda text o).2) := by
  constructor
  · intro h
    unfold analyze_nda
    rw [if_pos]
    rw [show decide ((stripWS text).length < 50) = true from by simpa using h]
    simp
  · intro h50
    rw [analyze_nda_valid_shape text o h50]
    rcases analyze_with_groq_cases (chunk_text text 500 100)
        (aggregatedRules (chunk_text text 500 100).length o) o.groq o.parse with hc | ⟨rep, hc⟩
    · rw [hc]
      refine ⟨by simp, ?_⟩
      exact List.mem_append_right _ (List.mem_singleton.mpr rfl)
    · rw [hc]
      refine ⟨by simp, ?_⟩
      exact List.mem_append_right _ (List.mem_singleton.mpr rfl)

/-- C3: in analyze_with_groq, generated text that fails JSON parsing yields the
degraded successful report with an empty risks list and the generic error
summary, so a request with such a generation outcome still ends in HTTP
success with that degraded body, while a failing generation call raises
HTTPException 500, which the endpoint propagates as a 500 outcome. -/
theorem groq_parse_failure_degraded (chunks : List (List Char)) (rules : List Rule)
    (parse : List Char → Option ParsedReport) (resp e : List Char) :
    (parse resp = Option.none →
      analyze_with_groq chunks rules (Except.ok resp) parse =
        Except.ok (⟨some [],
          some "Error parsing AI response. Please try again.".toList⟩ : ParsedReport)) ∧
    (analyze_with_groq chunks rules (Except.error e) parse = Except.error 500) ∧
    (∀ (text : List Char) (o : Oracles), 50 ≤ (stripWS text).length →
      o.groq = Except.ok resp → o.parse resp = Option.none →
      (analyze_nda text o).1 = Except.ok
        (⟨[], "Error parsing AI response. Please try again.".toList⟩ : RiskReport)) ∧
    (∀ (text : List Char) (o : Oracles), 50 ≤ (stripWS text).length →
      o.groq = Except.error e → (analyze_nda text o).1 = Except.error 500) := by
  refine ⟨?_, rfl, ?_, ?_⟩
  · intro hp
    rw [analyze_with_groq, hp]
  · intro text o h50 hg hp
    rw [analyze_nda_valid_shape text o h50]
    rw [show analyze_with_groq (chunk_text text 500 100)
        (aggregatedRules (chunk_text text 500 100).length o) o.groq o.parse =
        Except.ok (⟨some [],
          some "Error parsing AI response. Please try again.".toList⟩ : ParsedReport) from by
      rw [hg, analyze_with_groq, hp]]
    rfl
  · intro text o h50 hg
    rw [analyze_nda_valid_shape text o h50]
    rw [show analyze_with_groq (chunk_text text 500 100)
        (aggregatedRules (chunk_text text 500 100).length o) o.groq o.parse =
        Except.error 500 from by rw [hg]; rfl]

/-- C2: when the i-th similarity-search RPC raises, search_playbook_rules
swallows the exception and returns the empty list; consequently the aggregated
rule set equals the one obtained when that call instead returns no rows, the
HTTP outcome of the request is unchanged, and whenever the generation call
itself succeeds the request still produces a report. -/
theorem search_failure_isolated (text : List Char) (o : Oracles) (i : Nat) (e : List Char)
    (hi : o.search i = Except.error e) (h50 : 50 ≤ (stripWS text).length) :
    search_playbook_rules (o.search i) = [] ∧
    (∀ n, aggregatedRules n o = aggregatedRules n
      { search := fun j => if j = i then Except.ok (some []) else o.search j,
        groq := o.groq, parse := o.parse }) ∧
    (analyze_nda text o).1 = (analyze_nda text
      { search := fun j => if j = i then Except.ok (some []) else o.search j,
        groq := o.groq, parse := o.parse }).1 ∧
    (∀ resp, o.groq = Except.ok resp →
      ∃ report, (analyze_nda text o).1 = Except.ok report) := by
  refine ⟨by rw [hi]; rfl, ?_, ?_, ?_⟩
  · intro n
    rw [aggregatedRules, aggregatedRules]
    congr 1
    refine List.map_congr_left ?_
    intro j _
    by_cases hj : j = i
    · rw [hj, hi]
      show search_playbook_rules (Except.error e) =
        search_playbook_rules (if i = i then Except.ok (some []) else o.search i)
      rw [if_pos rfl]
      rfl
    · congr 1
      show o.search j = (if j = i then Except.ok (some []) else o.search j)
      rw [if_neg hj]
  · exact analyze_nda_fst_depends text o _ rfl rfl
  · intro resp hg
    rw [analyze_nda_valid_shape text o h50]
    rcases analyze_with_groq_cases (chunk_text text 500 100)
        (aggregatedRules (chunk_text text 500 100).length o) o.groq o.parse with hc | ⟨rep, hc⟩
    · rw [hg] at hc
      rw [analyze_with_groq] at hc
      rcases hp : o.parse resp with _ | r
      · rw [hp] at hc
        exact Except.noConfusion hc
      · rw [hp] at hc
        exact Except.noConfusion hc
    · rw [hc]
      exact ⟨_, rfl⟩

/-- C5: aggregation deduplicates by rule identifier with first-seen-wins
ordering: for any truthy identifier v, the rules with identifier v in the
aggregated set reduce to exactly the first-retrieved rule carrying v (and none
when no retrieved rule carries v), and the aggregated set is a subsequence of
the retrieval results in order. -/
theorem dedup_first_seen (lists : List (List Rule)) (v : PyVal) (hv : truthy v = true) :
    ((collectAll lists []).filter (fun r => r.id == v) =
      (match lists.flatten.filter (fun r => r.id == v) with
       | [] => ([] : List Rule)
       | r :: _ => [r])) ∧
    (collectAll lists []).Sublist lists.flatten := by
  rw [collectAll_eq_flatten]
  exact ⟨collectChunk_filter_first lists.flatten [] v hv rfl,
    collectChunk_fst_sublist lists.flatten []⟩

/-- C10: a retrieved rule whose id field is absent or falsy is excluded from
the aggregated rule set, even on its first occurrence: every rule in the
aggregated set has a truthy id. -/
theorem falsy_id_excluded (lists : List (List Rule)) (r : Rule)
    (hr : r ∈ collectAll lists []) : truthy r.id = true := by
  rw [collectAll_eq_flatten] at hr
  exact collectChunk_mem_truthy lists.flatten [] r hr

/-- C9 (amended): the endpoint does not validate severity values: a parsed
generation result is returned as-is, each risk entry converted by mkRiskItem,
which passes any present severity string through unchanged and substitutes the
default medium only when the key is absent. Membership of severity in the set
high, medium, low is requested in the prompt but not enforced. -/
theorem severity_passthrough (text : List Char) (o : Oracles) (resp : List Char)
    (rep : ParsedReport) (h50 : 50 ≤ (stripWS text).length)
    (hg : o.groq = Except.ok resp) (hp : o.parse resp = some rep) :
    (analyze_nda text o).1 = Except.ok
      (⟨(rep.risks.getD []).map mkRiskItem,
        rep.summary.getD "Analysis complete.".toList⟩ : RiskReport) ∧
    ∀ d : RiskDict, (mkRiskItem d).severity = d.severity.getD "medium".toList := by
  refine ⟨?_, fun d => rfl⟩
  rw [analyze_nda_valid_shape text o h50]
  rw [show analyze_with_groq (chunk_text text 500 100)
      (aggregatedRules (chunk_text text 500 100).length o) o.groq o.parse =
      Except.ok rep from by rw [hg, analyze_with_groq, hp]]

theorem degenerate_iff (chunks : List (List Char)) (cs : Nat) :
    degenerate chunks cs = true ↔
      (chunks = [] ∨ ∃ c, chunks = [c] ∧ cs * 2 < c.length) := by
  cases chunks with
  | nil => simp [degenerate]
  | cons c rest =>
    cases rest with
    | nil => simp [degenerate]
    | cons d rest2 => simp [degenerate]

/-- C8: the fallback is taken exactly when sentence packing is degenerate,
that is, yields no chunks or a single chunk longer than twice the chunk size;
in the fallback the returned chunks are the stripped non-empty slices
text[k*step : k*step + chunk_size] of the normalized text for step =
chunk_size - overlap, and otherwise the packed chunks are returned as is. -/
theorem chunk_text_fallback_iff (text : List Char) (cs ov : Nat) :
    (degenerate (packSentences cs (splitSentences (normalize text)) []) cs = true ↔
      (packSentences cs (splitSentences (normalize text)) [] = [] ∨
        ∃ c, packSentences cs (splitSentences (normalize text)) [] = [c] ∧
          cs * 2 < c.length)) ∧
    (degenerate (packSentences cs (splitSentences (normalize text)) []) cs = true →
      chunk_text text cs ov =
        ((List.range (((normalize text).length + (cs - ov) - 1) / (cs - ov))).map
          (fun k => stripWS (((normalize text).drop (k * (cs - ov))).take cs))).filter
          (fun c => !c.isEmpty)) ∧
    (degenerate (packSentences cs (splitSentences (normalize text)) []) cs = false →
      chunk_text text cs ov = packSentences cs (splitSentences (normalize text)) []) := by
  refine ⟨degenerate_iff _ cs, ?_, ?_⟩
  · intro h
    rw [chunk_text, if_pos h]
    rfl
  · intro h
    rw [chunk_text, if_neg (by rw [h]; exact Bool.noConfusion)]

/-- C6 (amended): a returned chunk can exceed the target chunk size, but never
exceeds the maximum of chunk_size + 1 (the greedy join adds an uncounted space)
and the length of the longest sentence of the normalized text (a single
sentence longer than the target is returned unsplit). -/
theorem chunk_text_size_bound (text : List Char) (cs ov : Nat) (ch : List Char)
    (hch : ch ∈ chunk_text text cs ov) :
    ch.length ≤ max (cs + 1) (maxLenList (splitSentences (normalize text))) := by
  rw [chunk_text] at hch
  by_cases hdeg : degenerate (packSentences cs (splitSentences (normalize text)) []) cs = true
  · rw [if_pos hdeg] at hch
    rw [fallbackSlices] at hch
    obtain ⟨hmem, _⟩ := List.mem_filter.mp hch
    obtain ⟨k, _, hk⟩ := List.mem_map.mp hmem
    have h1 : ch.length ≤ cs := by
      rw [← hk]
      have h2 := stripWS_length_le (((normalize text).drop (k * (cs - ov))).take cs)
      have h3 : ((((normalize text)).drop (k * (cs - ov))).take cs).length ≤ cs := by
        rw [List.length_take]
        omega
      omega
    have h4 := Nat.le_max_left (cs + 1) (maxLenList (splitSentences (normalize text)))
    omega
  · rw [if_neg hdeg] at hch
    have h1 := packSentences_length_le cs (splitSentences (normalize text)) [] ch hch
    have h2 : (([] : List Char)).length = 0 := rfl
    have h3 := Nat.le_max_left (cs + 1) (maxLenList (splitSentences (normalize text)))
    omega

/-- C7 (amended): chunk_text returns at least one chunk for every input with at
least one non-whitespace character (a non-empty but all-whitespace input
normalizes to the empty string and yields no chunks), and every returned chunk
is a non-empty trimmed string; stated for overlap < chunk_size, where the
fallback step of the Python range is positive. -/
theorem chunk_text_chunks_nonempty_trimmed (text : List Char) (cs ov : Nat)
    (hov : ov < cs) (h : nonWS text ≠ []) :
    chunk_text text cs ov ≠ [] ∧
      ∀ ch ∈ chunk_text text cs ov, ch ≠ [] ∧ stripWS ch = ch :=
  chunk_text_chunks text cs ov hov h

/-- C1 (amended): with the default parameters, an input with at least one
non-whitespace character (in particular any input whose stripped form has at
least 50 characters, as the endpoint requires) yields at least one chunk, all
chunks non-empty, and the non-whitespace content of the whitespace-normalized
input is contained, in order, in the concatenated content of the chunks; the
single spaces that separate sentence-packed chunks are the only characters of
the normalized input not covered. -/
theorem chunk_text_nonempty_and_covers (text : List Char) (h : nonWS text ≠ []) :
    chunk_text text 500 100 ≠ [] ∧
      (∀ ch ∈ chunk_text text 500 100, ch ≠ []) ∧
      (nonWS (normalize text)).Sublist (((chunk_text text 500 100).map nonWS).flatten) := by
  obtain ⟨h1, h2⟩ := chunk_text_chunks text 500 100 (by omega) h
  refine ⟨h1, fun ch hch => (h2 ch hch).1, ?_⟩
  rw [nonWS_normalize]
  exact chunk_text_nonWS_covers text 500 100 (by omega)

/-! Counterexamples and concrete witnesses for the claims. -/

/-- C1 counterexample: an input of exactly 50 characters that are all spaces
yields zero chunks, refuting the claim for inputs measured by raw length. -/
theorem chunk_text_allspace_no_chunk :
    (List.replicate 50 ' ').length = 50 ∧
      chunk_text (List.replicate 50 ' ') 500 100 = [] := by
  decide

/-- C1 witness: the amended statement evaluated on a concrete two-sentence
input. -/
theorem chunk_text_nonempty_and_covers_witness :
    chunk_text "First point. Second point!".toList 500 100 ≠ [] ∧
      (∀ ch ∈ chunk_text "First point. Second point!".toList 500 100, ch ≠ []) ∧
      (nonWS (normalize "First point. Second point!".toList)).Sublist
        (((chunk_text "First point. Second point!".toList 500 100).map nonWS).flatten) :=
  chunk_text_nonempty_and_covers "First point. Second point!".toList (by decide)

/-- C2 witness: with every search call failing and a parseable generation
outcome, the request still produces a report. -/
theorem search_failure_isolated_witness :
    ∃ report, (analyze_nda (List.replicate 50 'a')
      { search := fun _ => Except.error "x".toList,
        groq := Except.ok "r".toList, parse := fun _ => Option.none }).1 =
      Except.ok report :=
  (search_failure_isolated (List.replicate 50 'a')
    { search := fun _ => Except.error "x".toList,
      groq := Except.ok "r".toList, parse := fun _ => Option.none }
    0 "x".toList rfl (by decide)).2.2.2 "r".toList rfl

/-- C3 witness: a valid request whose generated text fails to parse ends in
HTTP success with the degraded body. -/
theorem groq_parse_failure_degraded_witness :
    (analyze_nda (List.replicate 50 'a')
      { search := fun _ => Except.ok Option.none,
        groq := Except.ok "x".toList, parse := fun _ => Option.none }).1 =
      Except.ok (⟨[], "Error parsing AI response. Please try again.".toList⟩ : RiskReport) :=
  (groq_parse_failure_degraded [] [] (fun _ => Option.none) "x".toList "e".toList).2.2.1
    (List.replicate 50 'a')
    { search := fun _ => Except.ok Option.none,
      groq := Except.ok "x".toList, parse := fun _ => Option.none }
    (by decide) rfl rfl

/-- C4 witness: a short text is rejected with 400 and no calls; a 60-character
text passes validation. -/
theorem analyze_nda_validation_witness :
    analyze_nda "short".toList
      { search := fun _ => Except.ok Option.none, groq := Except.ok "r".toList,
        parse := fun _ => Option.none } = (Except.error 400, []) ∧
    (analyze_nda (List.replicate 60 'b')
      { search := fun _ => Except.ok Option.none, groq := Except.ok "r".toList,
        parse := fun _ => Option.none }).1 ≠ Except.error 400 :=
  ⟨(analyze_nda_validation "short".toList
      { search := fun _ => Except.ok Option.none, groq := Except.ok "r".toList,
        parse := fun _ => Option.none }).1 (by decide),
   ((analyze_nda_validation (List.replicate 60 'b')
      { search := fun _ => Except.ok Option.none, groq := Except.ok "r".toList,
        parse := fun _ => Option.none }).2 (by decide)).1⟩

/-- C5 witness: two chunks retrieving rules with the same identifier 1 leave
exactly the first-retrieved copy, and the aggregate is a subsequence of the
retrievals. -/
theorem dedup_first_seen_witness :
    ((collectAll [[⟨PyVal.int 1, "a".toList, "a".toList, "a".toList⟩],
        [⟨PyVal.int 1, "b".toList, "b".toList, "b".toList⟩]] []).filter
          (fun r => r.id == PyVal.int 1) =
      [⟨PyVal.int 1, "a".toList, "a".toList, "a".toList⟩]) ∧
    (collectAll [[⟨PyVal.int 1, "a".toList, "a".toList, "a".toList⟩],
        [⟨PyVal.int 1, "b".toList, "b".toList, "b".toList⟩]] []).Sublist
      [⟨PyVal.int 1, "a".toList, "a".toList, "a".toList⟩,
       ⟨PyVal.int 1, "b".toList, "b".toList, "b".toList⟩] :=
  dedup_first_seen
    [[⟨PyVal.int 1, "a".toList, "a".toList, "a".toList⟩],
     [⟨PyVal.int 1, "b".toList, "b".toList, "b".toList⟩]]
    (PyVal.int 1) (by decide)

/-- C6 counterexample: a single 501-character sentence is returned as one chunk
of length 501 under the default chunk size 500, refuting the bound. -/
theorem chunk_text_oversize_chunk :
    ¬(∀ ch ∈ chunk_text (List.replicate 501 'a') 500 100, ch.length ≤ 500) := by
  decide

/-- C6 witness: the amended bound evaluated on a concrete chunk. -/
theorem chunk_text_size_bound_witness :
    ("Hi.".toList).length ≤ max (500 + 1) (maxLenList (splitSentences (normalize "Hi.".toList))) :=
  chunk_text_size_bound "Hi.".toList 500 100 "Hi.".toList (by decide)

/-- C7 counterexample: the one-character input consisting of a single space is
a non-empty string for which chunk_text produces no chunks. -/
theorem chunk_text_space_input_empty :
    " ".toList ≠ [] ∧ chunk_text " ".toList 500 100 = [] := by decide

/-- C7 witness: the amended statement evaluated on a concrete input. -/
theorem chunk_text_chunks_nonempty_trimmed_witness :
    chunk_text "Hello world.".toList 500 100 ≠ [] ∧
      ∀ ch ∈ chunk_text "Hello world.".toList 500 100, ch ≠ [] ∧ stripWS ch = ch :=
  chunk_text_chunks_nonempty_trimmed "Hello world.".toList 500 100 (by decide) (by decide)

/-- C8 witness: on five letters with chunk size 2 and overlap 1 the packed
result is one oversized chunk, so chunk_text equals the stripped fixed-width
slices with step 1. -/
theorem chunk_text_fallback_iff_witness :
    chunk_text (List.replicate 5 'a') 2 1 =
      ((List.range (((normalize (List.replicate 5 'a')).length + (2 - 1) - 1) / (2 - 1))).map
        (fun k => stripWS (((normalize (List.replicate 5 'a')).drop (k * (2 - 1))).take 2))).filter
        (fun c => !c.isEmpty) :=
  (chunk_text_fallback_iff (List.replicate 5 'a') 2 1).2.1 (by decide)

/-- C9 counterexample: a parsed generation result carrying the severity string
critical is accepted and returned unchanged by the endpoint, so a successful
response can carry a severity outside the three-value set. -/
theorem severity_unvalidated_cex :
    (analyze_nda (List.replicate 50 'a')
      { search := fun _ => Except.ok Option.none,
        groq := Except.ok "resp".toList,
        parse := fun _ => some ⟨some [⟨"c".toList, "i".toList, "f".toList,
          some "critical".toList⟩], some "s".toList⟩ }).1 =
      Except.ok (⟨[⟨"c".toList, "i".toList, "f".toList, "critical".toList⟩],
        "s".toList⟩ : RiskReport) ∧
    ¬("critical".toList = "high".toList ∨ "critical".toList = "medium".toList ∨
      "critical".toList = "low".toList) :=
  ⟨rfl, by decide⟩

/-- C9 witness: the amended pass-through statement evaluated on a concrete
run. -/
theorem severity_passthrough_witness :
    (analyze_nda (List.replicate 51 'a')
      { search := fun _ => Except.ok Option.none,
        groq := Except.ok "resp".toList,
        parse := fun _ => some ⟨some [⟨"c".toList, "i".toList, "f".toList,
          some "odd".toList⟩], some "s".toList⟩ }).1 =
      Except.ok (⟨[⟨"c".toList, "i".toList, "f".toList, "odd".toList⟩],
        "s".toList⟩ : RiskReport) ∧
    (∀ d : RiskDict, (mkRiskItem d).severity = d.severity.getD "medium".toList) :=
  severity_passthrough (List.replicate 51 'a')
    { search := fun _ => Except.ok Option.none,
      groq := Except.ok "resp".toList,
      parse := fun _ => some ⟨some [⟨"c".toList, "i".toList, "f".toList,
        some "odd".toList⟩], some "s".toList⟩ }
    "resp".toList
    ⟨some [⟨"c".toList, "i".toList, "f".toList, some "odd".toList⟩], some "s".toList⟩
    (by decide) rfl rfl

/-- C10 witness: a rule with the truthy identifier 7 is kept, and the theorem
confirms every kept rule has a truthy identifier. -/
theorem falsy_id_excluded_witness :
    truthy (Rule.mk (PyVal.int 7) "n".toList "s".toList "r".toList).id = true :=
  falsy_id_excluded [[⟨PyVal.int 7, "n".toList, "s".toList, "r".toList⟩]]
    ⟨PyVal.int 7, "n".toList, "s".toList, "r".toList⟩ (by decide)

end NDAGuardrail
